import Mathlib

/-!
Verification of the ring buffer in `src/mutex/src/main.rs`.

The Rust `RingBuffer` stores `Vec<Option<u8>>` together with `head`, `tail`,
`size`, `capacity` cursors (all `usize`).  We embed the state as a Lean
structure; `u8` values are modelled as `Nat` since the code never performs
arithmetic on them, and `usize` cursors as `Nat` (no overflow is possible:
`size` is bounded by `capacity` and `tail + 1` / `head + 1` are immediately
reduced modulo `capacity`).  Rust's in-place mutation becomes explicit state
passing: each operation returns its result paired with the successor state.
Rust indexing `self.data[i]` panics out of bounds; here reads use
`List.getD _ _ none` and writes use `List.set` (a no-op out of bounds), and a
dedicated safety theorem shows the indices are in bounds in every state
satisfying the representation invariant, so the total Lean functions agree
with the partial Rust operations on their actual domain.
-/

structure RingBuffer where
  data : List (Option Nat)
  head : Nat
  tail : Nat
  size : Nat
  capacity : Nat
deriving DecidableEq, Repr

inductive BufferError where
  | Full
deriving DecidableEq, Repr

def RingBuffer.new (capacity : Nat) : RingBuffer :=
  { data := List.replicate capacity none
    head := 0
    tail := 0
    size := 0
    capacity := capacity }

def RingBuffer.is_empty (b : RingBuffer) : Bool :=
  b.size == 0

def RingBuffer.is_full (b : RingBuffer) : Bool :=
  b.size == b.capacity

/-- `push` from the source: on a full buffer it fails with `Full` (the Rust
`&mut self` is untouched, so the pair carries the old state); otherwise it
writes `some value` at `tail`, advances `tail` modulo `capacity` and
increments `size`. -/
def RingBuffer.push (b : RingBuffer) (value : Nat) :
    Except BufferError Unit × RingBuffer :=
  if b.is_full then
    (Except.error BufferError.Full, b)
  else
    (Except.ok (),
      { b with
        data := b.data.set b.tail (some value)
        tail := (b.tail + 1) % b.capacity
        size := b.size + 1 })

/-- `pop` from the source: on an empty buffer it returns `none` and leaves the
state alone; otherwise it takes the value out of slot `head` (leaving `none`
behind, as `Option::take` does), advances `head` modulo `capacity` and
decrements `size`. -/
def RingBuffer.pop (b : RingBuffer) : Option Nat × RingBuffer :=
  if b.is_empty then
    (none, b)
  else
    (b.data.getD b.head none,
      { b with
        data := b.data.set b.head none
        head := (b.head + 1) % b.capacity
        size := b.size - 1 })

/-- Physical index of the `j`-th logical element (offset `j` from `head`). -/
def RingBuffer.slot (b : RingBuffer) (j : Nat) : Nat :=
  (b.head + j) % b.capacity

/-- The representation invariant of the buffer: the storage has length
`capacity`, `size` is bounded by `capacity`, the cursors are valid indices
whenever `capacity > 0`, `tail` is `head + size` modulo `capacity`, and a slot
holds a value exactly when it lies in the logical window
`[head, head + size)` taken modulo `capacity`. -/
def RingBuffer.Inv (b : RingBuffer) : Prop :=
  b.data.length = b.capacity ∧
  b.size ≤ b.capacity ∧
  (0 < b.capacity → b.head < b.capacity) ∧
  (0 < b.capacity → b.tail < b.capacity) ∧
  b.tail = (b.head + b.size) % b.capacity ∧
  ∀ i, i < b.capacity →
    ((b.data.getD i none).isSome ↔ ∃ j, j < b.size ∧ i = b.slot j)

/-- The abstract contents of the buffer: the slots of the logical window, in
logical (FIFO) order.  Under `Inv` every entry is `some _`. -/
def RingBuffer.model (b : RingBuffer) : List (Option Nat) :=
  (List.range b.size).map (fun j => b.data.getD (b.slot j) none)

/-- The values held by the buffer, in FIFO order. -/
def RingBuffer.contents (b : RingBuffer) : List Nat :=
  b.model.filterMap id

def RingBuffer.pushAll (b : RingBuffer) (vs : List Nat) : RingBuffer :=
  vs.foldl (fun b v => (b.push v).2) b

/-- `true` iff every push in the sequence succeeds. -/
def RingBuffer.pushAllOk (b : RingBuffer) : List Nat → Bool
  | [] => true
  | v :: vs =>
    (match (b.push v).1 with
      | Except.ok _ => true
      | Except.error _ => false)
      && RingBuffer.pushAllOk (b.push v).2 vs

/-- Pop `n` times, collecting the `n` results in order. -/
def RingBuffer.popN (b : RingBuffer) : Nat → List (Option Nat) × RingBuffer
  | 0 => ([], b)
  | n + 1 =>
    let r := b.pop
    let s := RingBuffer.popN r.2 n
    (r.1 :: s.1, s.2)

/-- States reachable from `init` by any sequence of pushes and pops. -/
inductive RingBuffer.Reachable (init : RingBuffer) : RingBuffer → Prop where
  | refl : RingBuffer.Reachable init init
  | push : ∀ b v, RingBuffer.Reachable init b →
      RingBuffer.Reachable init (b.push v).2
  | pop : ∀ b, RingBuffer.Reachable init b →
      RingBuffer.Reachable init b.pop.2

/-- The `SafeRingBuffer` wrapper.  The Rust struct holds `Mutex<RingBuffer>`;
the mutex only serializes access and carries no data of its own, so the state
is the inner buffer.  `push`/`pop` lock, delegate, and unlock. -/
structure SafeRingBuffer where
  inner : RingBuffer
deriving DecidableEq, Repr

def SafeRingBuffer.new (capacity : Nat) : SafeRingBuffer :=
  { inner := RingBuffer.new capacity }

def SafeRingBuffer.push (s : SafeRingBuffer) (value : Nat) :
    Except BufferError Unit × SafeRingBuffer :=
  ((s.inner.push value).1, { inner := (s.inner.push value).2 })

def SafeRingBuffer.pop (s : SafeRingBuffer) : Option Nat × SafeRingBuffer :=
  ((s.inner.pop).1, { inner := (s.inner.pop).2 })

/-- One serialized operation on the shared buffer.  The mutex makes every
concurrent execution equivalent to running some interleaved sequence of
these operations. -/
inductive Op where
  | push (v : Nat)
  | pop
deriving DecidableEq, Repr

/-- The values pushed by a trace, in trace order. -/
def pushedValues : List Op → List Nat
  | [] => []
  | Op.push v :: rest => v :: pushedValues rest
  | Op.pop :: rest => pushedValues rest

structure RunResult where
  buf : RingBuffer
  collected : List Nat
  allPushesOk : Bool
deriving Repr

/-- Run a serialized trace of operations, recording the values returned by
successful pops and whether every push succeeded. -/
def runOps (b : RingBuffer) : List Op → RunResult
  | [] => { buf := b, collected := [], allPushesOk := true }
  | Op.push v :: rest =>
    let p := b.push v
    let r := runOps p.2 rest
    { buf := r.buf
      collected := r.collected
      allPushesOk :=
        (match p.1 with
          | Except.ok _ => true
          | Except.error _ => false) && r.allPushesOk }
  | Op.pop :: rest =>
    let p := b.pop
    let r := runOps p.2 rest
    match p.1 with
    | some v => { buf := r.buf, collected := v :: r.collected, allPushesOk := r.allPushesOk }
    | none => { buf := r.buf, collected := r.collected, allPushesOk := r.allPushesOk }

/-! ### Helper lemmas -/

namespace RingBuffer

lemma getD_set_self (l : List (Option Nat)) (i : Nat) (a : Option Nat)
    (h : i < l.length) : (l.set i a).getD i none = a := by
  simp [List.getD_eq_getElem?_getD, List.getElem?_set_self h]

lemma getD_set_ne (l : List (Option Nat)) {i j : Nat} (a : Option Nat)
    (h : i ≠ j) : (l.set i a).getD j none = l.getD j none := by
  simp [List.getD_eq_getElem?_getD, List.getElem?_set_ne h]

lemma slot_inj {b : RingBuffer} {j k : Nat} (hj : j < b.capacity)
    (hk : k < b.capacity) (h : b.slot j = b.slot k) : j = k := by
  simp only [slot] at h
  have h' : j ≡ k [MOD b.capacity] := Nat.ModEq.add_left_cancel' b.head h
  rw [Nat.ModEq, Nat.mod_eq_of_lt hj, Nat.mod_eq_of_lt hk] at h'
  exact h'

lemma length_model (b : RingBuffer) : b.model.length = b.size := by
  simp [model]

lemma inv_new (c : Nat) : (RingBuffer.new c).Inv := by
  refine ⟨by simp [new], by simp [new], fun h => h, fun h => h,
    by simp [new], fun i hi => ?_⟩
  simp only [new] at hi ⊢
  simp [List.getD_eq_getElem?_getD, List.getElem?_replicate, hi]

lemma model_new (c : Nat) : (RingBuffer.new c).model = [] := by
  simp [model, new]

lemma size_lt_of_not_full {b : RingBuffer} (hInv : b.Inv)
    (h : b.is_full = false) : b.size < b.capacity := by
  have hne : b.size ≠ b.capacity := by simpa [is_full] using h
  exact lt_of_le_of_ne hInv.2.1 hne

lemma push_eq_of_not_full {b : RingBuffer} (v : Nat) (h : b.is_full = false) :
    b.push v =
      (Except.ok (),
        { b with
          data := b.data.set b.tail (some v)
          tail := (b.tail + 1) % b.capacity
          size := b.size + 1 }) := by
  simp [push, h]

lemma push_eq_of_full {b : RingBuffer} (v : Nat) (h : b.is_full = true) :
    b.push v = (Except.error BufferError.Full, b) := by
  simp [push, h]

lemma pop_eq_of_empty {b : RingBuffer} (h : b.is_empty = true) :
    b.pop = (none, b) := by
  simp [pop, h]

lemma pop_eq_of_not_empty {b : RingBuffer} (h : b.is_empty = false) :
    b.pop =
      (b.data.getD b.head none,
        { b with
          data := b.data.set b.head none
          head := (b.head + 1) % b.capacity
          size := b.size - 1 }) := by
  simp [pop, h]

lemma push_spec {b : RingBuffer} (hInv : b.Inv) (v : Nat)
    (h : b.is_full = false) :
    (b.push v).1 = Except.ok () ∧
    ((b.push v).2).Inv ∧
    (b.push v).2.model = b.model ++ [some v] ∧
    (b.push v).2.head = b.head ∧
    (b.push v).2.size = b.size + 1 ∧
    (b.push v).2.capacity = b.capacity := by
  obtain ⟨hlen, hsz, hhd, htl, hte, hwin⟩ := hInv
  have hslt : b.size < b.capacity := by
    have hne : b.size ≠ b.capacity := by simpa [is_full] using h
    exact lt_of_le_of_ne hsz hne
  have hc : 0 < b.capacity := Nat.lt_of_le_of_lt (Nat.zero_le _) hslt
  have htlt : b.tail < b.capacity := htl hc
  have htlen : b.tail < b.data.length := by rw [hlen]; exact htlt
  have hslot_ne : ∀ j, j < b.size → b.slot j ≠ b.tail := by
    intro j hj heq
    have hts : b.tail = b.slot b.size := hte
    have := slot_inj (Nat.lt_trans hj hslt) hslt (heq.trans hts)
    omega
  rw [push_eq_of_not_full v h]
  refine ⟨rfl, ?_, ?_, rfl, rfl, rfl⟩
  · refine ⟨by simpa using hlen, by simpa using hslt, fun _ => by simpa using hhd hc,
      fun _ => by simpa using Nat.mod_lt (b.tail + 1) hc, ?_, ?_⟩
    · show (b.tail + 1) % b.capacity = (b.head + (b.size + 1)) % b.capacity
      rw [hte, Nat.mod_add_mod, Nat.add_assoc]
    · intro i hi
      simp only at hi
      show ((b.data.set b.tail (some v)).getD i none).isSome = true ↔
        ∃ j, j < b.size + 1 ∧ i = (b.head + j) % b.capacity
      by_cases hit : i = b.tail
      · subst hit
        rw [getD_set_self _ _ _ htlen]
        simp only [Option.isSome_some, true_iff]
        exact ⟨b.size, Nat.lt_succ_self _, hte⟩
      · rw [getD_set_ne _ _ (fun hh => hit hh.symm)]
        rw [hwin i hi]
        constructor
        · rintro ⟨j, hj, rfl⟩
          exact ⟨j, Nat.lt_succ_of_lt hj, rfl⟩
        · rintro ⟨j, hj, rfl⟩
          rcases Nat.lt_succ_iff_lt_or_eq.mp hj with hj' | rfl
          · exact ⟨j, hj', rfl⟩
          · exact absurd hte.symm hit
  · show (List.range (b.size + 1)).map
        (fun j => (b.data.set b.tail (some v)).getD ((b.head + j) % b.capacity) none)
        = b.model ++ [some v]
    rw [List.range_succ, List.map_append]
    congr 1
    · apply List.map_congr_left
      intro j hj
      rw [List.mem_range] at hj
      exact getD_set_ne _ _ (fun hh => hslot_ne j hj hh.symm)
    · simp only [List.map_cons, List.map_nil]
      rw [show (b.head + b.size) % b.capacity = b.tail from hte.symm,
        getD_set_self _ _ _ htlen]

lemma pop_spec {b : RingBuffer} (hInv : b.Inv) (h : b.is_empty = false) :
    b.pop.1 = b.data.getD b.head none ∧
    (b.pop.1).isSome = true ∧
    (b.pop.2).Inv ∧
    b.model = b.pop.1 :: (b.pop.2).model ∧
    b.pop.2.size = b.size - 1 ∧
    b.pop.2.tail = b.tail ∧
    b.pop.2.capacity = b.capacity := by
  obtain ⟨hlen, hsz, hhd, htl, hte, hwin⟩ := hInv
  have hpos : 0 < b.size := by
    have hne : b.size ≠ 0 := by simpa [is_empty] using h
    omega
  have hc : 0 < b.capacity := Nat.lt_of_lt_of_le hpos hsz
  have hhlt : b.head < b.capacity := hhd hc
  have hhlen : b.head < b.data.length := by rw [hlen]; exact hhlt
  have hslot0 : b.slot 0 = b.head := by
    simp [slot, Nat.mod_eq_of_lt hhlt]
  have hisSome : (b.data.getD b.head none).isSome = true := by
    rw [hwin b.head hhlt]
    exact ⟨0, hpos, hslot0.symm⟩
  have hslot_ne0 : ∀ j, 0 < j → j < b.size → b.slot j ≠ b.head := by
    intro j hj0 hj heq
    have h0 : b.slot 0 = b.slot j := hslot0.trans heq.symm
    have := slot_inj hc (Nat.lt_of_lt_of_le hj hsz) h0
    omega
  have hslot' : ∀ j : Nat,
      ((b.head + 1) % b.capacity + j) % b.capacity = b.slot (j + 1) := by
    intro j
    rw [Nat.mod_add_mod]
    simp only [slot]
    congr 1
    omega
  rw [pop_eq_of_not_empty h]
  refine ⟨rfl, hisSome, ?_, ?_, rfl, rfl, rfl⟩
  · refine ⟨by simpa using hlen, by show b.size - 1 ≤ b.capacity; omega,
      fun _ => by show (b.head + 1) % b.capacity < b.capacity; exact Nat.mod_lt _ hc,
      fun _ => by show b.tail < b.capacity; exact htl hc, ?_, ?_⟩
    · show b.tail = ((b.head + 1) % b.capacity + (b.size - 1)) % b.capacity
      rw [Nat.mod_add_mod, show b.head + 1 + (b.size - 1) = b.head + b.size from by omega]
      exact hte
    · intro i hi
      show ((b.data.set b.head none).getD i none).isSome = true ↔
        ∃ j, j < b.size - 1 ∧ i = ((b.head + 1) % b.capacity + j) % b.capacity
      by_cases hih : i = b.head
      · subst hih
        rw [getD_set_self _ _ _ hhlen]
        refine iff_of_false (by simp) ?_
        rintro ⟨j, hj, hjeq⟩
        rw [hslot' j] at hjeq
        exact hslot_ne0 (j + 1) (Nat.succ_pos j) (by omega) hjeq.symm
      · rw [getD_set_ne _ _ (fun hh => hih hh.symm), hwin i hi]
        constructor
        · rintro ⟨j, hj, rfl⟩
          have hj0 : j ≠ 0 := fun h0 => hih (h0 ▸ hslot0)
          refine ⟨j - 1, by omega, ?_⟩
          rw [hslot' (j - 1)]
          congr 1
          omega
        · rintro ⟨j, hj, rfl⟩
          rw [hslot' j]
          exact ⟨j + 1, by omega, rfl⟩
  · show b.model = b.data.getD b.head none ::
      (List.range (b.size - 1)).map
        (fun j => (b.data.set b.head none).getD (((b.head + 1) % b.capacity + j) % b.capacity) none)
    unfold model
    rw [show b.size = b.size - 1 + 1 from by omega, List.range_succ_eq_map,
      List.map_cons, List.map_map]
    congr 1
    · rw [hslot0]
    · apply List.map_congr_left
      intro j hj
      rw [List.mem_range] at hj
      simp only [Function.comp_apply, Nat.succ_eq_add_one]
      rw [hslot' j,
        getD_set_ne _ _ (fun hh => hslot_ne0 (j + 1) (Nat.succ_pos j) (by omega) hh.symm)]

lemma push_inv {b : RingBuffer} (hInv : b.Inv) (v : Nat) : ((b.push v).2).Inv := by
  cases hf : b.is_full with
  | true => rw [push_eq_of_full v hf]; exact hInv
  | false => exact (push_spec hInv v hf).2.1

lemma pop_inv {b : RingBuffer} (hInv : b.Inv) : (b.pop.2).Inv := by
  cases he : b.is_empty with
  | true => rw [pop_eq_of_empty he]; exact hInv
  | false => exact (pop_spec hInv he).2.2.1

lemma pushAll_cons (b : RingBuffer) (v : Nat) (vs : List Nat) :
    b.pushAll (v :: vs) = ((b.push v).2).pushAll vs := rfl

lemma pushAll_spec (vs : List Nat) : ∀ b : RingBuffer, b.Inv →
    b.size + vs.length ≤ b.capacity →
    b.pushAllOk vs = true ∧
    (b.pushAll vs).Inv ∧
    (b.pushAll vs).model = b.model ++ vs.map some ∧
    (b.pushAll vs).size = b.size + vs.length ∧
    (b.pushAll vs).capacity = b.capacity := by
  induction vs with
  | nil =>
    intro b hInv h
    exact ⟨rfl, hInv, by simp [pushAll], by simp [pushAll], rfl⟩
  | cons v vs ih =>
    intro b hInv h
    have hlt : b.size < b.capacity := by
      simp only [List.length_cons] at h
      omega
    have hnf : b.is_full = false := by
      simp only [is_full, beq_eq_false_iff_ne]
      omega
    obtain ⟨hok1, hinv1, hm1, hhd1, hsz1, hcap1⟩ := push_spec hInv v hnf
    have hle : (b.push v).2.size + vs.length ≤ (b.push v).2.capacity := by
      rw [hsz1, hcap1]
      simp only [List.length_cons] at h
      omega
    obtain ⟨hok, hinv, hm, hsz, hcap⟩ := ih (b.push v).2 hinv1 hle
    refine ⟨?_, ?_, ?_, ?_, ?_⟩
    · simp [pushAllOk, hok1, hok]
    · rw [pushAll_cons]; exact hinv
    · rw [pushAll_cons, hm, hm1]
      simp
    · rw [pushAll_cons, hsz, hsz1]
      simp only [List.length_cons]
      omega
    · rw [pushAll_cons, hcap, hcap1]

lemma popN_spec (n : Nat) : ∀ b : RingBuffer, b.Inv → n ≤ b.size →
    (b.popN n).1 = b.model.take n ∧
    ((b.popN n).2).Inv ∧
    ((b.popN n).2).model = b.model.drop n := by
  induction n with
  | zero =>
    intro b hInv _
    exact ⟨by simp [popN], hInv, by simp [popN]⟩
  | succ n ih =>
    intro b hInv h
    have hne : b.is_empty = false := by
      simp only [is_empty, beq_eq_false_iff_ne]
      omega
    obtain ⟨hv, hsome, hinv2, hm, hsz2, _, _⟩ := pop_spec hInv hne
    have hle : n ≤ b.pop.2.size := by rw [hsz2]; omega
    obtain ⟨h1, h2, h3⟩ := ih b.pop.2 hinv2 hle
    refine ⟨?_, h2, ?_⟩
    · show b.pop.1 :: (RingBuffer.popN b.pop.2 n).1 = b.model.take (n + 1)
      rw [h1, hm, List.take_succ_cons]
    · show (RingBuffer.popN b.pop.2 n).2.model = b.model.drop (n + 1)
      rw [h3, hm, List.drop_succ_cons]

lemma contents_new (c : Nat) : (RingBuffer.new c).contents = [] := by
  simp [contents, model_new]

lemma contents_push {b : RingBuffer} (hInv : b.Inv) (v : Nat)
    (h : b.is_full = false) :
    ((b.push v).2).contents = b.contents ++ [v] := by
  simp [contents, (push_spec hInv v h).2.2.1]

lemma contents_pop {b : RingBuffer} (hInv : b.Inv) (h : b.is_empty = false) :
    ∃ v, b.pop.1 = some v ∧ b.contents = v :: (b.pop.2).contents := by
  obtain ⟨hv, hsome, _, hm, _, _, _⟩ := pop_spec hInv h
  obtain ⟨v, hv'⟩ := Option.isSome_iff_exists.mp hsome
  refine ⟨v, hv', ?_⟩
  rw [contents, hm, hv']
  simp [contents]

lemma reachable_new_zero {b : RingBuffer}
    (h : Reachable (RingBuffer.new 0) b) : b = RingBuffer.new 0 := by
  induction h with
  | refl => rfl
  | push b' v hr ih => rw [ih]; rfl
  | pop b' hr ih => rw [ih]; rfl

end RingBuffer

/-- Conservation along any serialized trace: the values collected by pops
together with the values still in the buffer are a permutation of the values
pushed together with the initial contents, provided every push succeeded. -/
lemma runOps_perm (ops : List Op) : ∀ b : RingBuffer, b.Inv →
    (runOps b ops).allPushesOk = true →
    ((runOps b ops).buf).Inv ∧
    ((runOps b ops).collected ++ (runOps b ops).buf.contents).Perm
      (pushedValues ops ++ b.contents) := by
  induction ops with
  | nil =>
    intro b hInv _
    exact ⟨hInv, by simp [runOps, pushedValues]⟩
  | cons op rest ih =>
    intro b hInv hok
    cases op with
    | push v =>
      have hok' : (match (b.push v).1 with
            | Except.ok _ => true
            | Except.error _ => false) = true
          ∧ (runOps (b.push v).2 rest).allPushesOk = true := by
        have h1 := hok
        simp only [runOps, Bool.and_eq_true] at h1
        exact h1
      have hnf : b.is_full = false := by
        cases hf : b.is_full with
        | false => rfl
        | true =>
          exfalso
          have h1 := hok'.1
          rw [RingBuffer.push_eq_of_full v hf] at h1
          simp at h1
      obtain ⟨hinv2, hperm⟩ := ih (b.push v).2 (RingBuffer.push_inv hInv v) hok'.2
      refine ⟨hinv2, ?_⟩
      show ((runOps (b.push v).2 rest).collected ++
          (runOps (b.push v).2 rest).buf.contents).Perm
        ((v :: pushedValues rest) ++ b.contents)
      refine hperm.trans ?_
      rw [RingBuffer.contents_push hInv v hnf, ← List.append_assoc]
      exact List.perm_append_singleton _ _
    | pop =>
      cases he : b.is_empty with
      | true =>
        have hpe := RingBuffer.pop_eq_of_empty he
        have hred : runOps b (Op.pop :: rest) = runOps b rest := by
          simp only [runOps, hpe]
        rw [hred] at hok ⊢
        exact ih b hInv hok
      | false =>
        obtain ⟨v, hv, hcont⟩ := RingBuffer.contents_pop hInv he
        have hinv2 := RingBuffer.pop_inv hInv
        have hred : runOps b (Op.pop :: rest) =
            { buf := (runOps b.pop.2 rest).buf
              collected := v :: (runOps b.pop.2 rest).collected
              allPushesOk := (runOps b.pop.2 rest).allPushesOk } := by
          simp only [runOps, hv]
        have hok2 : (runOps b.pop.2 rest).allPushesOk = true := by
          rw [hred] at hok
          exact hok
        obtain ⟨hinvf, hperm⟩ := ih b.pop.2 hinv2 hok2
        rw [hred]
        refine ⟨hinvf, ?_⟩
        show ((v :: (runOps b.pop.2 rest).collected) ++
            (runOps b.pop.2 rest).buf.contents).Perm
          (pushedValues rest ++ b.contents)
        rw [hcont]
        exact (hperm.cons v).trans List.perm_middle.symm

/-! ### Claim theorems -/

/-- Claim C1: for every capacity `c` and sequence `vs` with `vs.length ≤ c`,
pushing the values of `vs` in order into a fresh buffer makes every push
succeed, and `vs.length` subsequent pops return exactly the values of `vs`
in order (strict FIFO). -/
theorem claim_C1_fifo (c : Nat) (vs : List Nat) (h : vs.length ≤ c) :
    (RingBuffer.new c).pushAllOk vs = true ∧
    (((RingBuffer.new c).pushAll vs).popN vs.length).1 = vs.map some := by
  have h0 : (RingBuffer.new c).size + vs.length ≤ (RingBuffer.new c).capacity := by
    simpa [RingBuffer.new] using h
  obtain ⟨hok, hinv, hm, hsz, hcap⟩ :=
    RingBuffer.pushAll_spec vs (RingBuffer.new c) (RingBuffer.inv_new c) h0
  refine ⟨hok, ?_⟩
  have hle : vs.length ≤ ((RingBuffer.new c).pushAll vs).size := by
    rw [hsz]
    simp [RingBuffer.new]
  obtain ⟨h1, _, _⟩ := RingBuffer.popN_spec vs.length _ hinv hle
  rw [h1, hm, RingBuffer.model_new, List.nil_append]
  exact List.take_of_length_le (by simp)

/-- Witness for C1: capacity 3, values `[1, 2, 3]`. -/
theorem claim_C1_fifo_witness :
    (RingBuffer.new 3).pushAllOk [1, 2, 3] = true ∧
    (((RingBuffer.new 3).pushAll [1, 2, 3]).popN ([1, 2, 3] : List Nat).length).1
      = ([1, 2, 3] : List Nat).map some :=
  claim_C1_fifo 3 [1, 2, 3] (by decide)

/-- Claim C2: a push against a full buffer (`size = capacity`) fails with
`Full` and leaves the whole state (storage, head, tail, size) unchanged;
in particular after exactly `capacity` successful pushes on a fresh buffer
with no pops, the next push fails with `Full`, the buffer is unchanged, and
a subsequent pop still returns the first pushed value. -/
theorem claim_C2_full :
    (∀ (b : RingBuffer) (v : Nat), b.size = b.capacity →
      b.push v = (Except.error BufferError.Full, b)) ∧
    (∀ (v0 v : Nat) (rest : List Nat),
      ((RingBuffer.new (v0 :: rest).length).pushAll (v0 :: rest)).push v =
        (Except.error BufferError.Full,
          (RingBuffer.new (v0 :: rest).length).pushAll (v0 :: rest)) ∧
      (((RingBuffer.new (v0 :: rest).length).pushAll (v0 :: rest)).pop).1 = some v0) := by
  constructor
  · intro b v h
    exact RingBuffer.push_eq_of_full v (by simp [RingBuffer.is_full, h])
  · intro v0 v rest
    have h0 : (RingBuffer.new (v0 :: rest).length).size + (v0 :: rest).length ≤
        (RingBuffer.new (v0 :: rest).length).capacity := by
      simp [RingBuffer.new]
    obtain ⟨hok, hinv, hm, hsz, hcap⟩ :=
      RingBuffer.pushAll_spec (v0 :: rest) (RingBuffer.new (v0 :: rest).length)
        (RingBuffer.inv_new (v0 :: rest).length) h0
    rw [RingBuffer.model_new, List.nil_append] at hm
    have hfull : ((RingBuffer.new (v0 :: rest).length).pushAll (v0 :: rest)).size =
        ((RingBuffer.new (v0 :: rest).length).pushAll (v0 :: rest)).capacity := by
      rw [hsz, hcap]
      simp [RingBuffer.new]
    refine ⟨RingBuffer.push_eq_of_full v
      (by simp only [RingBuffer.is_full, hfull, beq_self_eq_true]), ?_⟩
    have hne : ((RingBuffer.new (v0 :: rest).length).pushAll (v0 :: rest)).is_empty = false := by
      simp only [RingBuffer.is_empty, beq_eq_false_iff_ne]
      rw [hsz]
      simp [RingBuffer.new]
    obtain ⟨_, _, _, hmcons, _, _, _⟩ := RingBuffer.pop_spec hinv hne
    rw [hm, List.map_cons] at hmcons
    exact (List.cons.inj hmcons).1.symm

/-- Witness for C2: a full capacity-0 buffer, and the capacity-3 scenario. -/
theorem claim_C2_full_witness :
    (RingBuffer.new 0).push 7 = (Except.error BufferError.Full, RingBuffer.new 0) ∧
    (((RingBuffer.new 3).pushAll [1, 2, 3]).push 4 =
        (Except.error BufferError.Full, (RingBuffer.new 3).pushAll [1, 2, 3]) ∧
      (((RingBuffer.new 3).pushAll [1, 2, 3]).pop).1 = some 1) :=
  ⟨claim_C2_full.1 (RingBuffer.new 0) 7 rfl, claim_C2_full.2 1 4 [2, 3]⟩

/-- Claim C3: on an invariant state with `size < capacity`, `push v` succeeds,
writes `some v` into slot `tail`, leaves every other slot unchanged, advances
`tail` to `(tail + 1) % capacity`, increments `size`, and leaves `head`,
`capacity` and the storage length unchanged. -/
theorem claim_C3_push_not_full (b : RingBuffer) (v : Nat) (hInv : b.Inv)
    (h : b.size < b.capacity) :
    (b.push v).1 = Except.ok () ∧
    (b.push v).2.data.getD b.tail none = some v ∧
    (∀ i, i ≠ b.tail → (b.push v).2.data.getD i none = b.data.getD i none) ∧
    (b.push v).2.tail = (b.tail + 1) % b.capacity ∧
    (b.push v).2.size = b.size + 1 ∧
    (b.push v).2.head = b.head ∧
    (b.push v).2.capacity = b.capacity ∧
    (b.push v).2.data.length = b.data.length := by
  have hnf : b.is_full = false := by
    simp only [RingBuffer.is_full, beq_eq_false_iff_ne]
    omega
  have hc : 0 < b.capacity := by omega
  have htlen : b.tail < b.data.length := by
    rw [hInv.1]
    exact hInv.2.2.2.1 hc
  rw [RingBuffer.push_eq_of_not_full v hnf]
  refine ⟨rfl, ?_, ?_, rfl, rfl, rfl, rfl, ?_⟩
  · exact RingBuffer.getD_set_self _ _ _ htlen
  · intro i hi
    exact RingBuffer.getD_set_ne _ _ (fun hh => hi hh.symm)
  · exact List.length_set b.data b.tail (some v)

/-- Witness for C3: a fresh capacity-2 buffer, pushing 5. -/
theorem claim_C3_push_not_full_witness :
    ((RingBuffer.new 2).push 5).1 = Except.ok () ∧
    ((RingBuffer.new 2).push 5).2.data.getD (RingBuffer.new 2).tail none = some 5 ∧
    (∀ i, i ≠ (RingBuffer.new 2).tail →
      ((RingBuffer.new 2).push 5).2.data.getD i none =
        (RingBuffer.new 2).data.getD i none) ∧
    ((RingBuffer.new 2).push 5).2.tail =
      ((RingBuffer.new 2).tail + 1) % (RingBuffer.new 2).capacity ∧
    ((RingBuffer.new 2).push 5).2.size = (RingBuffer.new 2).size + 1 ∧
    ((RingBuffer.new 2).push 5).2.head = (RingBuffer.new 2).head ∧
    ((RingBuffer.new 2).push 5).2.capacity = (RingBuffer.new 2).capacity ∧
    ((RingBuffer.new 2).push 5).2.data.length = (RingBuffer.new 2).data.length :=
  claim_C3_push_not_full (RingBuffer.new 2) 5 (RingBuffer.inv_new 2) (by decide)

/-- Claim C4: on an invariant state with `size > 0`, `pop` returns the value
stored at slot `head` (a `some`, never `none`), clears that slot, advances
`head` to `(head + 1) % capacity`, decrements `size`, and leaves every other
slot and `tail` unchanged. -/
theorem claim_C4_pop_not_empty (b : RingBuffer) (hInv : b.Inv)
    (h : 0 < b.size) :
    (b.pop.1).isSome = true ∧
    b.pop.1 = b.data.getD b.head none ∧
    b.pop.2.data.getD b.head none = none ∧
    (∀ i, i ≠ b.head → b.pop.2.data.getD i none = b.data.getD i none) ∧
    b.pop.2.head = (b.head + 1) % b.capacity ∧
    b.pop.2.size = b.size - 1 ∧
    b.pop.2.tail = b.tail ∧
    b.pop.2.capacity = b.capacity := by
  have hne : b.is_empty = false := by
    simp only [RingBuffer.is_empty, beq_eq_false_iff_ne]
    omega
  obtain ⟨hv, hsome, _, _, _, _, _⟩ := RingBuffer.pop_spec hInv hne
  have hc : 0 < b.capacity := Nat.lt_of_lt_of_le h hInv.2.1
  have hhlen : b.head < b.data.length := by
    rw [hInv.1]
    exact hInv.2.2.1 hc
  refine ⟨hsome, hv, ?_, ?_, ?_, ?_, ?_, ?_⟩
  · rw [RingBuffer.pop_eq_of_not_empty hne]
    exact RingBuffer.getD_set_self _ _ _ hhlen
  · intro i hi
    rw [RingBuffer.pop_eq_of_not_empty hne]
    exact RingBuffer.getD_set_ne _ _ (fun hh => hi hh.symm)
  · rw [RingBuffer.pop_eq_of_not_empty hne]
  · rw [RingBuffer.pop_eq_of_not_empty hne]
  · rw [RingBuffer.pop_eq_of_not_empty hne]
  · rw [RingBuffer.pop_eq_of_not_empty hne]

/-- Witness for C4: a capacity-2 buffer holding the single value 5. -/
theorem claim_C4_pop_not_empty_witness :
    ((((RingBuffer.new 2).push 5).2).pop.1).isSome = true ∧
    (((RingBuffer.new 2).push 5).2).pop.1 =
      (((RingBuffer.new 2).push 5).2).data.getD (((RingBuffer.new 2).push 5).2).head none ∧
    (((RingBuffer.new 2).push 5).2).pop.2.data.getD
      (((RingBuffer.new 2).push 5).2).head none = none ∧
    (∀ i, i ≠ (((RingBuffer.new 2).push 5).2).head →
      (((RingBuffer.new 2).push 5).2).pop.2.data.getD i none =
        (((RingBuffer.new 2).push 5).2).data.getD i none) ∧
    (((RingBuffer.new 2).push 5).2).pop.2.head =
      ((((RingBuffer.new 2).push 5).2).head + 1) % (((RingBuffer.new 2).push 5).2).capacity ∧
    (((RingBuffer.new 2).push 5).2).pop.2.size = (((RingBuffer.new 2).push 5).2).size - 1 ∧
    (((RingBuffer.new 2).push 5).2).pop.2.tail = (((RingBuffer.new 2).push 5).2).tail ∧
    (((RingBuffer.new 2).push 5).2).pop.2.capacity = (((RingBuffer.new 2).push 5).2).capacity :=
  claim_C4_pop_not_empty ((RingBuffer.new 2).push 5).2
    (RingBuffer.push_inv (RingBuffer.inv_new 2) 5) (by decide)

/-- Claim C5: the representation invariant holds for `new c` and is preserved
by every push and every pop, whether they succeed or fail. -/
theorem claim_C5_invariant :
    (∀ c, (RingBuffer.new c).Inv) ∧
    (∀ (b : RingBuffer) (v : Nat), b.Inv → ((b.push v).2).Inv) ∧
    (∀ b : RingBuffer, b.Inv → (b.pop.2).Inv) :=
  ⟨RingBuffer.inv_new, fun _ v hInv => RingBuffer.push_inv hInv v,
    fun _ hInv => RingBuffer.pop_inv hInv⟩

/-- Witness for C5: a fresh capacity-2 buffer, one push, one pop. -/
theorem claim_C5_invariant_witness :
    (RingBuffer.new 2).Inv ∧ (((RingBuffer.new 2).push 7).2).Inv ∧
    ((RingBuffer.new 2).pop.2).Inv :=
  ⟨claim_C5_invariant.1 2,
    claim_C5_invariant.2.1 (RingBuffer.new 2) 7 (claim_C5_invariant.1 2),
    claim_C5_invariant.2.2 (RingBuffer.new 2) (claim_C5_invariant.1 2)⟩

/-- Claim C6: popping a buffer with `size = 0` returns `none` (not an error)
and leaves the entire state — storage, head, tail, size — unchanged. -/
theorem claim_C6_pop_empty (b : RingBuffer) (h : b.size = 0) :
    b.pop = (none, b) :=
  RingBuffer.pop_eq_of_empty (by simp [RingBuffer.is_empty, h])

/-- Witness for C6: a fresh capacity-3 buffer. -/
theorem claim_C6_pop_empty_witness :
    (RingBuffer.new 3).pop = (none, RingBuffer.new 3) :=
  claim_C6_pop_empty (RingBuffer.new 3) rfl

/-- Claim C7: every state reachable from a capacity-0 buffer is both full and
empty, its pop always returns `none`, and its push always fails with `Full` —
with no special-cased logic (the same `push`/`pop` code runs) and no error at
construction. -/
theorem claim_C7_zero_capacity (b : RingBuffer) (v : Nat)
    (h : RingBuffer.Reachable (RingBuffer.new 0) b) :
    b.is_full = true ∧ b.is_empty = true ∧ b.pop = (none, b) ∧
    b.push v = (Except.error BufferError.Full, b) := by
  rw [RingBuffer.reachable_new_zero h]
  exact ⟨rfl, rfl, rfl, rfl⟩

/-- Witness for C7: the freshly constructed capacity-0 buffer itself. -/
theorem claim_C7_zero_capacity_witness :
    (RingBuffer.new 0).is_full = true ∧ (RingBuffer.new 0).is_empty = true ∧
    (RingBuffer.new 0).pop = (none, RingBuffer.new 0) ∧
    (RingBuffer.new 0).push 5 = (Except.error BufferError.Full, RingBuffer.new 0) :=
  claim_C7_zero_capacity (RingBuffer.new 0) 5 RingBuffer.Reachable.refl

/-- Claim C8: `SafeRingBuffer.push`/`pop` return exactly the result of the
inner `RingBuffer.push`/`pop` on the wrapped state, and leave the wrapper
holding exactly the inner operation's successor state — the lock wrapper
changes no result. -/
theorem claim_C8_delegation (s : SafeRingBuffer) (v : Nat) :
    (s.push v).1 = (s.inner.push v).1 ∧
    ((s.push v).2).inner = (s.inner.push v).2 ∧
    s.pop.1 = s.inner.pop.1 ∧
    (s.pop.2).inner = s.inner.pop.2 :=
  ⟨rfl, rfl, rfl, rfl⟩

/-- Claim C9: along any serialized interleaving of pushes and pops starting
from a fresh buffer, if every push succeeded and the pops collected exactly
as many values as were pushed, then the multiset of collected values equals
the multiset of pushed values — nothing lost, duplicated or corrupted. -/
theorem claim_C9_conservation (c : Nat) (ops : List Op)
    (hok : (runOps (RingBuffer.new c) ops).allPushesOk = true)
    (hdrain : (runOps (RingBuffer.new c) ops).collected.length
      = (pushedValues ops).length) :
    ((runOps (RingBuffer.new c) ops).collected : Multiset Nat)
      = (pushedValues ops : Multiset Nat) := by
  obtain ⟨_, hperm⟩ := runOps_perm ops (RingBuffer.new c) (RingBuffer.inv_new c) hok
  rw [RingBuffer.contents_new, List.append_nil] at hperm
  have hlen := hperm.length_eq
  rw [List.length_append, hdrain] at hlen
  have hfin : (runOps (RingBuffer.new c) ops).buf.contents = [] :=
    List.length_eq_zero.mp (by omega)
  rw [hfin, List.append_nil] at hperm
  exact Multiset.coe_eq_coe.mpr hperm

/-- Witness for C9: two producers' worth of pushes interleaved with pops on a
capacity-2 buffer. -/
theorem claim_C9_conservation_witness :
    ((runOps (RingBuffer.new 2)
        [Op.push 5, Op.pop, Op.push 6, Op.push 7, Op.pop, Op.pop]).collected : Multiset Nat)
      = (pushedValues [Op.push 5, Op.pop, Op.push 6, Op.push 7, Op.pop, Op.pop] :
          Multiset Nat) :=
  claim_C9_conservation 2 [Op.push 5, Op.pop, Op.push 6, Op.push 7, Op.pop, Op.pop]
    (by decide) (by decide)

/-- Claim C10: in every invariant state, the partial operations inside
`push`'s non-full branch and `pop`'s non-empty branch are safe: the capacity
is nonzero (so the modulo never divides by zero) and the written/read index
(`tail` resp. `head`) is within the storage bounds (so Rust's indexing cannot
panic). -/
theorem claim_C10_no_panic (b : RingBuffer) (hInv : b.Inv) :
    (b.is_full = false → 0 < b.capacity ∧ b.tail < b.data.length) ∧
    (b.is_empty = false → 0 < b.capacity ∧ b.head < b.data.length) := by
  obtain ⟨hlen, hsz, hhd, htl, _, _⟩ := hInv
  constructor
  · intro h
    have hne : b.size ≠ b.capacity := by simpa [RingBuffer.is_full] using h
    have hc : 0 < b.capacity := by omega
    exact ⟨hc, by rw [hlen]; exact htl hc⟩
  · intro h
    have hne : b.size ≠ 0 := by simpa [RingBuffer.is_empty] using h
    have hc : 0 < b.capacity := by omega
    exact ⟨hc, by rw [hlen]; exact hhd hc⟩

/-- Witness for C10: the non-full fresh capacity-2 buffer, and the non-empty
buffer obtained by pushing 5 into it. -/
theorem claim_C10_no_panic_witness :
    (0 < (RingBuffer.new 2).capacity ∧
      (RingBuffer.new 2).tail < (RingBuffer.new 2).data.length) ∧
    (0 < ((RingBuffer.new 2).push 5).2.capacity ∧
      ((RingBuffer.new 2).push 5).2.head < ((RingBuffer.new 2).push 5).2.data.length) :=
  ⟨(claim_C10_no_panic (RingBuffer.new 2) (RingBuffer.inv_new 2)).1 (by decide),
    (claim_C10_no_panic ((RingBuffer.new 2).push 5).2
      (RingBuffer.push_inv (RingBuffer.inv_new 2) 5)).2 (by decide)⟩
